import Mathlib

/-!
Verification development for the phantom-credential-checker repository.

The core pipeline (src/inspector.py, src/phantom_redactor.py, src/archestra.py)
is shallowly embedded below:
* text is `List Char`;
* the Python `re` patterns of `DocumentInspector.PATTERNS` are embedded as a
  small backtracking regular-expression engine (`Regex.runM`) with
  leftmost-match scanning (`findIter`), reproducing `re.finditer` semantics
  (ordered alternation, greedy quantifiers with backtracking, word boundaries,
  case-insensitive matching as requested by `re.IGNORECASE`);
* timestamps (`time.time()` floats) are modelled as rationals;
* the `KeyError`-capable dictionary update in `PhantomRedactor._create_summary`
  is modelled with `Option`.
-/

namespace Phantom

/-- Python `\w` (ASCII part): letters, digits, underscore. -/
def isWordChar (c : Char) : Bool := c.isAlphanum || c == '_'

/-- Python `\s` (ASCII part): space, tab, newline, carriage return,
vertical tab, form feed. -/
def isSpaceChar (c : Char) : Bool :=
  c == ' ' || c == '\t' || c == '\n' || c == '\r' || c == '\x0b' || c == '\x0c'

/-- The `\b` word-boundary test between an optional previous character and an
optional next character (edge of text counts as non-word). -/
def boundaryB (prev next : Option Char) : Bool :=
  (match prev with | some c => isWordChar c | none => false) !=
  (match next with | some c => isWordChar c | none => false)

/-- Regular-expression syntax sufficient for the seven patterns of
`DocumentInspector.PATTERNS`: every quantifier in those patterns ranges over a
single character class, so `rep` quantifies a class with greedy
`{lo,hi}` semantics (`hi = none` meaning unbounded). -/
inductive Regex : Type where
  | eps : Regex
  | cls : (Char → Bool) → Regex
  | seq : Regex → Regex → Regex
  | alt : Regex → Regex → Regex
  | opt : Regex → Regex
  | rep : (Char → Bool) → Nat → Option Nat → Regex
  | wb : Regex

/-- A matching continuation: given the previous character and the remaining
input, produce the remaining matched characters (or fail). -/
def Cont : Type := Option Char → List Char → Option (List Char)

/-- Length of the maximal prefix of `s` whose characters satisfy `p`. -/
def maxRunF (p : Char → Bool) : List Char → Nat
  | [] => 0
  | c :: rest => if p c then maxRunF p rest + 1 else 0

/-- Length of the maximal prefix satisfying `p`, capped at `hi`. -/
def maxRun (p : Char → Bool) (hi : Option Nat) (s : List Char) : Nat :=
  match hi with
  | none => maxRunF p s
  | some h => min (maxRunF p s) h

/-- The previous-character marker after consuming `l` (falling back to the
old marker when `l` is empty). -/
def lastOr (prev : Option Char) (l : List Char) : Option Char :=
  match l.getLast? with
  | some c => some c
  | none => prev

/-- Try one repetition count `i`: consume `i` characters and run the
continuation. -/
def repAttempt (prev : Option Char) (s : List Char) (k : Cont) (i : Nat) :
    Option (List Char) :=
  (k (lastOr prev (s.take i)) (s.drop i)).map (fun r => s.take i ++ r)

/-- Greedy backtracking over repetition counts `lo + j, lo + j - 1, …, lo`. -/
def repGo (prev : Option Char) (s : List Char) (k : Cont) (lo : Nat) :
    Nat → Option (List Char)
  | 0 => repAttempt prev s k lo
  | j + 1 =>
    match repAttempt prev s k (lo + j + 1) with
    | some r => some r
    | none => repGo prev s k lo j

/-- Backtracking matcher in continuation-passing style; mirrors Python `re`
semantics for the constructs used: ordered alternation, greedy `?` and
greedy counted repetition with backtracking, zero-width `\b`. -/
def Regex.runM : Regex → Option Char → List Char → Cont → Option (List Char)
  | .eps, prev, s, k => k prev s
  | .cls p, _, s, k =>
    match s with
    | [] => none
    | c :: rest => if p c then (k (some c) rest).map (fun r => c :: r) else none
  | .seq a b, prev, s, k => a.runM prev s (fun p2 s2 => b.runM p2 s2 k)
  | .alt a b, prev, s, k =>
    match a.runM prev s k with
    | some r => some r
    | none => b.runM prev s k
  | .opt a, prev, s, k =>
    match a.runM prev s k with
    | some r => some r
    | none => k prev s
  | .rep p lo hi, prev, s, k =>
    if maxRun p hi s < lo then none else repGo prev s k lo (maxRun p hi s - lo)
  | .wb, prev, s, k => if boundaryB prev s.head? then k prev s else none

/-- Attempt a match of `r` at the current position (`prev` is the character
just before the position). Returns the matched characters. -/
def matchAt (r : Regex) (prev : Option Char) (s : List Char) :
    Option (List Char) :=
  r.runM prev s (fun _ _ => some [])

/-- One step of the `re.finditer` scan, dispatching on the match attempt's
result: a non-empty match is recorded and the scan resumes after it; an
empty match is recorded and the scan advances one character (as Python
does); no match advances one character. -/
def scanCont (next : Option Char → List Char → Nat → List (Nat × List Char))
    (prev : Option Char) (s : List Char) (pos : Nat) :
    Option (List Char) → List (Nat × List Char)
  | some [] =>
    match s with
    | [] => [(pos, [])]
    | c :: rest => (pos, []) :: next (some c) rest (pos + 1)
  | some m =>
    (pos, m) :: next (lastOr prev m) (s.drop m.length) (pos + m.length)
  | none =>
    match s with
    | [] => []
    | c :: rest => next (some c) rest (pos + 1)

/-- `re.finditer` scan: leftmost non-overlapping matches. `fuel` starts at
`s.length + 1`, enough for the whole scan. Yields `(position, match)` pairs. -/
def scanAux (r : Regex) : Nat → Option Char → List Char → Nat →
    List (Nat × List Char)
  | 0, _, _, _ => []
  | fuel + 1, prev, s, pos =>
    scanCont (scanAux r fuel) prev s pos (matchAt r prev s)

/-- All matches of `r` in `s`, as `(position, matched characters)`. -/
def findIter (r : Regex) (s : List Char) : List (Nat × List Char) :=
  scanAux r (s.length + 1) none s 0

/-- Case-insensitive literal character (the patterns are compiled with
`re.IGNORECASE`). -/
def lch (c : Char) : Regex := .cls (fun x => x.toLower == c)

/-- Literal (non-letter) character. -/
def ch (c : Char) : Regex := .cls (fun x => x == c)

/-- Case-insensitive literal word. -/
def strCI : List Char → Regex
  | [] => .eps
  | c :: rest => .seq (lch c) (strCI rest)

/-- `\d`. -/
def digitC (c : Char) : Bool := c.isDigit

/-- `[-\s]`, the credit-card group separator class. -/
def sepC (c : Char) : Bool := c == '-' || isSpaceChar c

/-- `\s*`. -/
def wsStar : Regex := .rep isSpaceChar 0 none

/-- `:?`. -/
def optColon : Regex := .opt (ch ':')

/-- One `\d{4}` block of the credit-card pattern. -/
def ccBlock : Regex := .rep digitC 4 (some 4)

/-- One optional `[-\s]?` separator of the credit-card pattern. -/
def ccSep : Regex := .opt (.cls sepC)

/-- `credit_card`: `\b(?:\d{4}[-\s]?){3}\d{4}\b` with the counted group
unrolled. -/
def creditCardRe : Regex :=
  .seq .wb (.seq ccBlock (.seq ccSep (.seq ccBlock (.seq ccSep
    (.seq ccBlock (.seq ccSep (.seq ccBlock .wb)))))))

/-- `ssn`: `\b\d{3}-\d{2}-\d{4}\b`. -/
def ssnRe : Regex :=
  .seq .wb (.seq (.rep digitC 3 (some 3)) (.seq (ch '-')
    (.seq (.rep digitC 2 (some 2)) (.seq (ch '-')
      (.seq (.rep digitC 4 (some 4)) .wb)))))

/-- `(?:[Nn]umber|[Nn]o\.?|#)?`, the optional label tail shared by the
account and routing patterns. -/
def numLabelOpt : Regex :=
  .opt (.alt (strCI "number".toList)
    (.alt (.seq (strCI "no".toList) (.opt (ch '.'))) (ch '#')))

/-- `[Aa]ccount\s*(?:[Nn]umber|[Nn]o\.?|#)?`. -/
def accountBranch : Regex :=
  .seq (strCI "account".toList) (.seq wsStar numLabelOpt)

/-- `[Aa][Cc][Cc][Tt]\s*#?`. -/
def acctBranch : Regex :=
  .seq (strCI "acct".toList) (.seq wsStar (.opt (ch '#')))

/-- `account_number`:
`\b(?:[Aa]ccount\s*(?:[Nn]umber|[Nn]o\.?|#)?|[Aa][Cc][Cc][Tt]\s*#?)\s*:?\s*(\d{8,17})\b`. -/
def accountNumberRe : Regex :=
  .seq .wb (.seq (.alt accountBranch acctBranch)
    (.seq wsStar (.seq optColon (.seq wsStar
      (.seq (.rep digitC 8 (some 17)) .wb)))))

/-- `[Rr]outing\s*(?:[Nn]umber|[Nn]o\.?|#)?`. -/
def routingBranch : Regex :=
  .seq (strCI "routing".toList) (.seq wsStar numLabelOpt)

/-- `[Rr][Tt][Gg]\s*#?`. -/
def rtgBranch : Regex :=
  .seq (strCI "rtg".toList) (.seq wsStar (.opt (ch '#')))

/-- `[Rr]oute\s*:?`. -/
def routeBranch : Regex :=
  .seq (strCI "route".toList) (.seq wsStar optColon)

/-- `routing_number`:
`\b(?:[Rr]outing\s*(?:[Nn]umber|[Nn]o\.?|#)?|[Rr][Tt][Gg]\s*#?|[Rr]oute\s*:?)\s*:?\s*(\d{9})\b`. -/
def routingNumberRe : Regex :=
  .seq .wb (.seq (.alt routingBranch (.alt rtgBranch routeBranch))
    (.seq wsStar (.seq optColon (.seq wsStar
      (.seq (.rep digitC 9 (some 9)) .wb)))))

/-- `[A-Za-z0-9._%+-]`, the email local-part class. -/
def localC (c : Char) : Bool :=
  c.isAlphanum || c == '.' || c == '_' || c == '%' || c == '+' || c == '-'

/-- `[A-Za-z0-9.-]`, the email domain class. -/
def domainC (c : Char) : Bool := c.isAlphanum || c == '.' || c == '-'

/-- `[A-Z|a-z]`, the email TLD class (the literal `|` is part of the class in
the source pattern). -/
def tldC (c : Char) : Bool := c.isAlpha || c == '|'

/-- `email`: `\b[A-Za-z0-9._%+-]+@[A-Za-z0-9.-]+\.[A-Z|a-z]{2,}\b`. -/
def emailRe : Regex :=
  .seq .wb (.seq (.rep localC 1 none) (.seq (ch '@')
    (.seq (.rep domainC 1 none) (.seq (ch '.')
      (.seq (.rep tldC 2 none) .wb)))))

/-- `[^\s]`. -/
def nonSpaceC (c : Char) : Bool := !isSpaceChar c

/-- `(?:[Pp]assword|[Pp]ass|[Pp]wd)`. -/
def passLabel : Regex :=
  .alt (strCI "password".toList) (.alt (strCI "pass".toList)
    (strCI "pwd".toList))

/-- `password`: `\b(?:[Pp]assword|[Pp]ass|[Pp]wd)\s*:?\s*([^\s]+)\b`. -/
def passwordRe : Regex :=
  .seq .wb (.seq passLabel (.seq wsStar (.seq optColon
    (.seq wsStar (.seq (.rep nonSpaceC 1 none) .wb)))))

/-- `[_-]`. -/
def usDash (c : Char) : Bool := c == '_' || c == '-'

/-- `[:=]`. -/
def colonEq (c : Char) : Bool := c == ':' || c == '='

/-- `['"]`. -/
def quoteC (c : Char) : Bool := c == '\'' || c == '"'

/-- `[A-Za-z0-9_\-]`, the API-key token class. -/
def keyC (c : Char) : Bool := c.isAlphanum || c == '_' || c == '-'

/-- `api[_-]?key`. -/
def apiKeyBranch : Regex :=
  .seq (strCI "api".toList) (.seq (.opt (.cls usDash)) (strCI "key".toList))

/-- `api[_-]?secret`. -/
def apiSecretBranch : Regex :=
  .seq (strCI "api".toList) (.seq (.opt (.cls usDash)) (strCI "secret".toList))

/-- `api_key`:
`\b(?:api[_-]?key|apikey|api[_-]?secret)\s*[:=]\s*['"]?([A-Za-z0-9_\-]{20,})['"]?\b`. -/
def apiKeyRe : Regex :=
  .seq .wb (.seq (.alt apiKeyBranch (.alt (strCI "apikey".toList)
      apiSecretBranch))
    (.seq wsStar (.seq (.cls colonEq) (.seq wsStar
      (.seq (.opt (.cls quoteC)) (.seq (.rep keyC 20 none)
        (.seq (.opt (.cls quoteC)) .wb)))))))

/-- `DocumentInspector._get_severity`. -/
def getSeverity (patternType : String) : String :=
  if (["credit_card", "ssn", "password", "api_key"] : List String).contains
      patternType then
    "HIGH"
  else if (["account_number", "routing_number"] : List String).contains
      patternType then
    "MEDIUM"
  else "LOW"

/-- One finding of `DocumentInspector.inspect_text`: pattern name, matched
substring (`match.group(0)`), span (`match.span()`), and severity. -/
structure Finding where
  ftype : String
  value : List Char
  startPos : Nat
  endPos : Nat
  severity : String
deriving Repr, DecidableEq

/-- The findings one pattern contributes to `inspect_text`. -/
def findingsFor (text : List Char) (name : String) (r : Regex) :
    List Finding :=
  (findIter r text).map
    (fun m => ⟨name, m.2, m.1, m.1 + m.2.length, getSeverity name⟩)

/-- `DocumentInspector.inspect_text`: all patterns evaluated in the
(insertion-ordered) `PATTERNS` dictionary order, findings concatenated. -/
def inspectText (text : List Char) : List Finding :=
  findingsFor text "credit_card" creditCardRe ++
  findingsFor text "ssn" ssnRe ++
  findingsFor text "account_number" accountNumberRe ++
  findingsFor text "routing_number" routingNumberRe ++
  findingsFor text "email" emailRe ++
  findingsFor text "password" passwordRe ++
  findingsFor text "api_key" apiKeyRe

/-- `PhantomRedactor.REDACTION_MARKERS.get(finding_type, '[REDACTED]')`. -/
def markerFor (t : String) : List Char :=
  if t = "credit_card" then "[REDACTED-CREDIT-CARD]".toList
  else if t = "ssn" then "[REDACTED-SSN]".toList
  else if t = "account_number" then "[REDACTED-ACCOUNT]".toList
  else if t = "routing_number" then "[REDACTED-ROUTING]".toList
  else if t = "email" then "[REDACTED-EMAIL]".toList
  else if t = "password" then "[REDACTED-PASSWORD]".toList
  else if t = "api_key" then "[REDACTED-API-KEY]".toList
  else "[REDACTED]".toList

/-- The preserve-format mask: first 2 characters visible and the rest
asterisks when the value is longer than 4 characters, otherwise all
asterisks. -/
def maskValue (v : List Char) : List Char :=
  if 4 < v.length then v.take 2 ++ List.replicate (v.length - 2) '*'
  else List.replicate v.length '*'

/-- The redacted value chosen for a finding (`redact_text`, redaction-marker
choice). -/
def redValue (preserveFormat : Bool) (f : Finding) : List Char :=
  if preserveFormat then maskValue f.value else markerFor f.ftype

/-- One entry of the redaction log. -/
structure RedactionRecord where
  rtype : String
  original : List Char
  redacted : List Char
  startPos : Nat
  stopPos : Nat
  severity : String
deriving Repr, DecidableEq

/-- The redaction-log record built for a finding. -/
def mkRecord (preserveFormat : Bool) (f : Finding) : RedactionRecord :=
  ⟨f.ftype, f.value, redValue preserveFormat f, f.startPos, f.endPos,
    f.severity⟩

/-- Stable insertion of a finding into a list already sorted by descending
start offset (ties keep earlier-inserted elements first), matching Python's
stable `sorted(findings, key=lambda x: x['position'][0], reverse=True)`. -/
def insertDesc (f : Finding) : List Finding → List Finding
  | [] => [f]
  | g :: gs => if g.startPos ≤ f.startPos then f :: g :: gs
               else g :: insertDesc f gs

/-- Stable sort by descending start offset. -/
def sortDescByStart : List Finding → List Finding
  | [] => []
  | f :: fs => insertDesc f (sortDescByStart fs)

/-- One iteration of the `redact_text` loop: splice the redacted value over
the finding's span in the evolving text and append the log record. -/
def redactStep (preserveFormat : Bool) (acc : List Char × List RedactionRecord)
    (f : Finding) : List Char × List RedactionRecord :=
  (acc.1.take f.startPos ++ redValue preserveFormat f ++ acc.1.drop f.endPos,
   acc.2 ++ [mkRecord preserveFormat f])

/-- `PhantomRedactor.redact_text`: detect, sort findings by descending start
offset, then rewrite right-to-left, logging every redaction. -/
def redactText (text : List Char) (preserveFormat : Bool) :
    List Char × List RedactionRecord :=
  (sortDescByStart (inspectText text)).foldl (redactStep preserveFormat)
    (text, [])

end Phantom

namespace Phantom

/-- Increment of `summary['by_type']` via `.get(r_type, 0) + 1` followed by
key assignment: total (inserts a fresh key at the end when absent). -/
def setIncr : List (String × Nat) → String → List (String × Nat)
  | [], key => [(key, 1)]
  | (k, v) :: rest, key =>
    if k = key then (k, v + 1) :: rest else (k, v) :: setIncr rest key

/-- Increment of `summary['by_severity'][severity] += 1`: fails (Python
`KeyError`) when the key is absent. -/
def incrKey : List (String × Nat) → String → Option (List (String × Nat))
  | [], _ => none
  | (k, v) :: rest, key =>
    if k = key then some ((k, v + 1) :: rest)
    else (incrKey rest key).map (fun r => (k, v) :: r)

/-- `RedactionSummary` as built by `PhantomRedactor._create_summary`. -/
structure RedactionSummary where
  totalRedactions : Nat
  byType : List (String × Nat)
  bySeverity : List (String × Nat)
deriving Repr, DecidableEq

/-- The initial `by_severity` dictionary of `_create_summary`. -/
def bySevInit : List (String × Nat) := [("HIGH", 0), ("MEDIUM", 0), ("LOW", 0)]

/-- The `_create_summary` counting loop over the redaction log. -/
def summaryGo : List RedactionRecord → List (String × Nat) →
    List (String × Nat) → Option (List (String × Nat) × List (String × Nat))
  | [], ty, sv => some (ty, sv)
  | r :: rest, ty, sv =>
    match incrKey sv r.severity with
    | none => none
    | some sv2 => summaryGo rest (setIncr ty r.rtype) sv2

/-- `PhantomRedactor._create_summary`; `none` models the `KeyError` raised
when a record's severity is not one of the three pre-seeded keys. -/
def createSummary (log : List RedactionRecord) : Option RedactionSummary :=
  (summaryGo log [] bySevInit).map (fun p => ⟨log.length, p.1, p.2⟩)

/-- The result dictionary of `PhantomRedactor.redact_document` (which calls
`redact_text` with the default `preserve_format=True`). -/
structure RedactDoc where
  original : List Char
  redacted : List Char
  redactionCount : Nat
  redactionLog : List RedactionRecord
  summary : Option RedactionSummary
deriving Repr, DecidableEq

/-- `PhantomRedactor.redact_document`. -/
def redactDocument (content : List Char) : RedactDoc :=
  ⟨content, (redactText content true).1, (redactText content true).2.length,
    (redactText content true).2, createSummary (redactText content true).2⟩

/-- One trace event. `redactions` is the `'redactions'` entry of the event's
data dictionary — present only on the `intercept` path's `PHANTOM_REDACT`
events, and the only payload `get_statistics` reads. `redactionsMade` is the
`'redactions_made'` entry, the distinct key under which `process_with_trace`
records its redaction count. Timestamps are rationals standing for
`time.time()` floats. -/
structure Event where
  etype : String
  redactions : Option Nat
  redactionsMade : Option Nat
  timestamp : ℚ
deriving Repr, DecidableEq

/-- One trace record of `ArchestraInterceptor.trace_log`; `endTime` and
`duration` are `none` until `_complete_trace` sets them. -/
structure Trace where
  traceId : List Char
  startTime : ℚ
  events : List Event
  status : String
  endTime : Option ℚ
  duration : Option ℚ
deriving Repr, DecidableEq

/-- Little-endian decimal digits of `n`, computed with explicit fuel (fuel
`n` is always sufficient). -/
def digitsLE : Nat → Nat → List Nat
  | _, 0 => []
  | 0, _ + 1 => []
  | fuel + 1, n + 1 => ((n + 1) % 10) :: digitsLE fuel ((n + 1) / 10)

/-- Big-endian decimal digit characters of `n` (empty for `n = 0`). -/
def decChars (n : Nat) : List Char :=
  ((digitsLE n n).map Nat.digitChar).reverse

/-- Python `f"{n:04d}"`: decimal digits left-padded with `'0'` to width 4. -/
def padChars (n : Nat) : List Char :=
  List.replicate (4 - (decChars n).length) '0' ++ decChars n

/-- The trace id `f"TRACE-{n:04d}"` allocated for interception number `n`. -/
def traceIdChars (n : Nat) : List Char := "TRACE-".toList ++ padChars n

/-- The interceptor's mutable state: the `trace_log` list and the
`interception_count` counter. -/
structure ArchState where
  traceLog : List Trace
  interceptionCount : Nat
deriving Repr, DecidableEq

/-- The freshly-constructed interceptor (`ArchestraInterceptor.__init__`). -/
def initState : ArchState := ⟨[], 0⟩

/-- `ArchestraInterceptor._start_trace` at clock reading `t`: bump the
counter, allocate the id, append an `in_progress` trace. -/
def startTrace (st : ArchState) (t : ℚ) : ArchState × List Char :=
  (⟨st.traceLog ++
      [⟨traceIdChars (st.interceptionCount + 1), t, [], "in_progress", none,
        none⟩],
    st.interceptionCount + 1⟩,
   traceIdChars (st.interceptionCount + 1))

/-- Append an event to the first trace in the log with the given id
(`_log_trace`'s linear search). -/
def appendEventTo (l : List Trace) (tid : List Char) (ev : Event) :
    List Trace :=
  match l with
  | [] => []
  | tr :: rest =>
    if tr.traceId = tid then
      { tr with events := tr.events ++ [ev] } :: rest
    else tr :: appendEventTo rest tid ev

/-- `ArchestraInterceptor._log_trace`. -/
def logTrace (st : ArchState) (tid : List Char) (etype : String)
    (redactions redactionsMade : Option Nat) (t : ℚ) : ArchState :=
  ⟨appendEventTo st.traceLog tid ⟨etype, redactions, redactionsMade, t⟩,
    st.interceptionCount⟩

/-- Mark the first trace with the given id completed, recording end time and
duration (`_complete_trace`). -/
def completeIn (l : List Trace) (tid : List Char) (t : ℚ) : List Trace :=
  match l with
  | [] => []
  | tr :: rest =>
    if tr.traceId = tid then
      { tr with
        status := "completed"
        endTime := some t
        duration := some (t - tr.startTime) } :: rest
    else tr :: completeIn rest tid t

/-- `ArchestraInterceptor._complete_trace`. -/
def completeTrace (st : ArchState) (tid : List Char) (t : ℚ) : ArchState :=
  ⟨completeIn st.traceLog tid t, st.interceptionCount⟩

/-- The interception sequence shared in shape by `process_with_trace` and an
`intercept`-wrapped call: start a trace at clock `t0`, append the four
events `AGENT_READ`, `ARCHESTRA_INTERCEPT`, `PHANTOM_REDACT`,
`SAFE_DATA_DELIVERED`, then complete the trace at clock `t1`. The two paths
differ in the key under which the `PHANTOM_REDACT` event stores the
redaction count: `intercept` stores it under `'redactions'` (`rd`) whereas
`process_with_trace` stores it under `'redactions_made'` (`rdMade`).
Intermediate `time.time()` readings are represented by `t0`. -/
def interceptionSteps (st : ArchState) (t0 t1 : ℚ)
    (rd rdMade : Option Nat) : ArchState :=
  let p := startTrace st t0
  let st2 := logTrace p.1 p.2 "AGENT_READ" none none t0
  let st3 := logTrace st2 p.2 "ARCHESTRA_INTERCEPT" none none t0
  let st4 := logTrace st3 p.2 "PHANTOM_REDACT" rd rdMade t0
  let st5 := logTrace st4 p.2 "SAFE_DATA_DELIVERED" none none t0
  completeTrace st5 p.2 t1

/-- The dictionary returned by `process_with_trace` (fields used by the
claims). -/
structure TraceResult where
  traceId : List Char
  originalContent : List Char
  redactedContent : List Char
  safeData : List Char
  interceptionSuccessful : Bool
deriving Repr, DecidableEq

/-- `ArchestraInterceptor.process_with_trace` at clock readings `t0` (start)
and `t1` (completion). -/
def processWithTrace (st : ArchState) (content : List Char) (t0 t1 : ℚ) :
    ArchState × TraceResult :=
  (interceptionSteps st t0 t1 none
     (some (redactDocument content).redactionCount),
   ⟨traceIdChars (st.interceptionCount + 1), content,
     (redactDocument content).redacted, (redactDocument content).redacted,
     true⟩)

/-- A call to a function wrapped by `ArchestraInterceptor.intercept`: the
same trace sequence, with the wrapped function invoked on the redacted
content and its return value passed through. -/
def interceptWrapper {α : Type} (st : ArchState) (f : List Char → α)
    (content : List Char) (t0 t1 : ℚ) : ArchState × α :=
  (interceptionSteps st t0 t1
     (some (redactDocument content).redactionCount) none,
   f (redactDocument content).redacted)

/-- `ArchestraInterceptor.get_trace_history`: meaning of the Python slice
`self.trace_log[-limit:]` for a non-negative `limit` (for `limit = 0` the
slice is `[0:]`, the whole list). -/
def getTraceHistory (st : ArchState) (limit : Nat) : List Trace :=
  if limit = 0 then st.traceLog
  else st.traceLog.drop (st.traceLog.length - limit)

/-- The sum of the `'redactions'` data entries over a trace's
`PHANTOM_REDACT` events (`get_statistics`'s inner loop;
`event['data'].get('redactions', 0)`). -/
def traceRedactions (tr : Trace) : Nat :=
  (tr.events.map (fun e =>
    if e.etype = "PHANTOM_REDACT" then e.redactions.getD 0 else 0)).sum

/-- The statistics dictionary of `get_statistics`. -/
structure Stats where
  totalInterceptions : Nat
  totalRedactions : Nat
  averageDuration : ℚ
  tracesCompleted : Nat
deriving Repr, DecidableEq

/-- `ArchestraInterceptor.get_statistics`: totals over traces with status
`completed`, but with the average computed over `len(self.trace_log)` (all
traces, completed or not), 0 when the log is empty. -/
def getStatistics (st : ArchState) : Stats :=
  ⟨st.interceptionCount,
   ((st.traceLog.filter (fun tr => tr.status = "completed")).map
      traceRedactions).sum,
   (if st.traceLog.length = 0 then 0
    else ((st.traceLog.filter (fun tr => tr.status = "completed")).map
        (fun tr => tr.duration.getD 0)).sum / (st.traceLog.length : ℚ)),
   (st.traceLog.filter (fun tr => tr.status = "completed")).length⟩

/-- A sequence of sequential `process_with_trace` calls, each given its
content and its start/end clock readings. -/
def runCalls (st : ArchState) : List (List Char × ℚ × ℚ) → ArchState
  | [] => st
  | (c, t0, t1) :: rest => runCalls (processWithTrace st c t0 t1).1 rest

end Phantom

namespace Phantom

/-- Numeric value of a decimal digit character. -/
def chVal (c : Char) : Nat := c.toNat - 48

/-- Decimal value of a big-endian digit-character list (leading zeros are
harmless). -/
def valChars (cs : List Char) : Nat :=
  cs.foldl (fun a c => 10 * a + chVal c) 0

/-- The sequence number encoded in a trace id (`valChars` of the characters
after the 6-character `TRACE-` tag). -/
def idVal (cs : List Char) : Nat := valChars (cs.drop 6)

theorem chVal_digitChar (d : Nat) (hd : d < 10) :
    chVal (Nat.digitChar d) = d := by
  interval_cases d <;> rfl

theorem digitsLE_lt (fuel n d : Nat) (h : d ∈ digitsLE fuel n) : d < 10 := by
  induction fuel generalizing n with
  | zero =>
    cases n with
    | zero => simp [digitsLE] at h
    | succ m => simp [digitsLE] at h
  | succ fuel ih =>
    cases n with
    | zero => simp [digitsLE] at h
    | succ m =>
      simp only [digitsLE, List.mem_cons] at h
      rcases h with h | h
      · omega
      · exact ih _ h

theorem digitsLE_ofDigits (fuel n : Nat) (h : n ≤ fuel) :
    Nat.ofDigits 10 (digitsLE fuel n) = n := by
  induction fuel generalizing n with
  | zero =>
    cases n with
    | zero => simp [digitsLE]
    | succ m => omega
  | succ fuel ih =>
    cases n with
    | zero => simp [digitsLE]
    | succ m =>
      have hdiv : (m + 1) / 10 ≤ fuel := by
        have := Nat.div_lt_self (Nat.succ_pos m) (by norm_num : 1 < 10)
        omega
      simp only [digitsLE, Nat.ofDigits_cons, ih _ hdiv]
      omega

theorem foldl_digitChars (l : List Nat) (hl : ∀ d ∈ l, d < 10) (a : Nat) :
    List.foldl (fun a c => 10 * a + chVal c) a ((l.map Nat.digitChar).reverse)
      = a * 10 ^ l.length + Nat.ofDigits 10 l := by
  induction l generalizing a with
  | nil => simp [Nat.ofDigits_nil]
  | cons d t ih =>
    have hd : d < 10 := hl d (List.mem_cons_self d t)
    have ht : ∀ x ∈ t, x < 10 := fun x hx => hl x (List.mem_cons_of_mem d hx)
    simp only [List.map_cons, List.reverse_cons, List.foldl_append,
      ih ht a, List.foldl_cons, List.foldl_nil, chVal_digitChar d hd,
      Nat.ofDigits_cons, List.length_cons, pow_succ]
    ring

theorem valChars_padChars (n : Nat) : valChars (padChars n) = n := by
  have hz : ∀ k a, List.foldl (fun a c => 10 * a + chVal c) a
      (List.replicate k '0') = a * 10 ^ k := by
    intro k
    induction k with
    | zero => intro a; simp
    | succ m ih =>
      intro a
      have : chVal '0' = 0 := rfl
      simp only [List.replicate_succ, List.foldl_cons, this, Nat.add_zero,
        ih, pow_succ]
      ring
  unfold valChars padChars decChars
  rw [List.foldl_append, hz,
    foldl_digitChars _ (fun d hd => digitsLE_lt n n d hd),
    digitsLE_ofDigits n n (Nat.le_refl n)]
  simp

theorem padChars_injective (m n : Nat) (h : padChars m = padChars n) :
    m = n := by
  have := congrArg valChars h
  rwa [valChars_padChars, valChars_padChars] at this

theorem idVal_traceIdChars (n : Nat) : idVal (traceIdChars n) = n := by
  unfold idVal traceIdChars
  have h6 : ("TRACE-".toList : List Char).length = 6 := rfl
  rw [← h6, List.drop_left, valChars_padChars]

theorem traceIdChars_injective (m n : Nat)
    (h : traceIdChars m = traceIdChars n) : m = n := by
  have := congrArg idVal h
  rwa [idVal_traceIdChars, idVal_traceIdChars] at this

end Phantom

namespace Phantom

/-- The fully-built trace that one interception leaves in the log; `rd` and
`rdMade` are the `PHANTOM_REDACT` event's `'redactions'` and
`'redactions_made'` entries. -/
def completedTraceOf (n : Nat) (t0 t1 : ℚ) (rd rdMade : Option Nat) :
    Trace :=
  ⟨traceIdChars n, t0,
   [⟨"AGENT_READ", none, none, t0⟩,
    ⟨"ARCHESTRA_INTERCEPT", none, none, t0⟩,
    ⟨"PHANTOM_REDACT", rd, rdMade, t0⟩,
    ⟨"SAFE_DATA_DELIVERED", none, none, t0⟩],
   "completed", some t1, some (t1 - t0)⟩

theorem appendEventTo_last (l1 : List Trace) (tr : Trace) (tid : List Char)
    (ev : Event) (hfresh : ∀ t ∈ l1, t.traceId ≠ tid)
    (hid : tr.traceId = tid) :
    appendEventTo (l1 ++ [tr]) tid ev =
      l1 ++ [{ tr with events := tr.events ++ [ev] }] := by
  induction l1 with
  | nil => simp [appendEventTo, hid]
  | cons t ts ih =>
    have hne : t.traceId ≠ tid := hfresh t (List.mem_cons_self t ts)
    simp only [List.cons_append, appendEventTo, if_neg hne, List.append_eq]
    rw [ih (fun x hx => hfresh x (List.mem_cons_of_mem t hx))]

theorem completeIn_last (l1 : List Trace) (tr : Trace) (tid : List Char)
    (t : ℚ) (hfresh : ∀ x ∈ l1, x.traceId ≠ tid) (hid : tr.traceId = tid) :
    completeIn (l1 ++ [tr]) tid t =
      l1 ++ [{ tr with
               status := "completed"
               endTime := some t
               duration := some (t - tr.startTime) }] := by
  induction l1 with
  | nil => simp [completeIn, hid]
  | cons x ts ih =>
    have hne : x.traceId ≠ tid := hfresh x (List.mem_cons_self x ts)
    simp only [List.cons_append, completeIn, if_neg hne, List.append_eq]
    rw [ih (fun y hy => hfresh y (List.mem_cons_of_mem x hy))]

theorem interceptionSteps_spec (st : ArchState) (t0 t1 : ℚ)
    (rd rdMade : Option Nat)
    (hfresh : ∀ t ∈ st.traceLog,
      t.traceId ≠ traceIdChars (st.interceptionCount + 1)) :
    interceptionSteps st t0 t1 rd rdMade =
      ⟨st.traceLog ++
         [completedTraceOf (st.interceptionCount + 1) t0 t1 rd rdMade],
       st.interceptionCount + 1⟩ := by
  simp only [interceptionSteps, startTrace, logTrace, completeTrace]
  rw [appendEventTo_last _ _ _ _ hfresh rfl]
  rw [appendEventTo_last _ _ _ _ hfresh rfl]
  rw [appendEventTo_last _ _ _ _ hfresh rfl]
  rw [appendEventTo_last _ _ _ _ hfresh rfl]
  rw [completeIn_last _ _ _ _ hfresh rfl]
  simp [completedTraceOf]

/-- The state invariant maintained by sequential interceptions: the counter
equals the log length, the ids are `TRACE-0001 … TRACE-n` in order, and every
logged trace is completed. -/
def GoodState (st : ArchState) : Prop :=
  st.interceptionCount = st.traceLog.length ∧
  st.traceLog.map (fun tr => tr.traceId) =
    (List.range st.traceLog.length).map (fun i => traceIdChars (i + 1)) ∧
  ∀ tr ∈ st.traceLog, tr.status = "completed"

theorem goodState_init : GoodState initState := by
  refine ⟨rfl, rfl, ?_⟩
  intro tr htr
  simp [initState] at htr

theorem goodState_fresh (st : ArchState) (h : GoodState st) :
    ∀ t ∈ st.traceLog,
      t.traceId ≠ traceIdChars (st.interceptionCount + 1) := by
  intro t ht hEq
  have hmem : t.traceId ∈ st.traceLog.map (fun tr => tr.traceId) :=
    List.mem_map_of_mem _ ht
  rw [h.2.1] at hmem
  obtain ⟨i, hi, hid⟩ := List.mem_map.mp hmem
  have hlt : i < st.traceLog.length := List.mem_range.mp hi
  have hinj : i + 1 = st.interceptionCount + 1 :=
    traceIdChars_injective _ _ (hid.trans hEq)
  have hc := h.1
  omega

theorem processWithTrace_state (st : ArchState) (content : List Char)
    (t0 t1 : ℚ) (h : GoodState st) :
    (processWithTrace st content t0 t1).1 =
      ⟨st.traceLog ++
         [completedTraceOf (st.interceptionCount + 1) t0 t1 none
            (some (redactDocument content).redactionCount)],
       st.interceptionCount + 1⟩ :=
  interceptionSteps_spec st t0 t1 none
    (some (redactDocument content).redactionCount) (goodState_fresh st h)

theorem goodState_step (st : ArchState) (content : List Char) (t0 t1 : ℚ)
    (h : GoodState st) :
    GoodState (processWithTrace st content t0 t1).1 := by
  rw [processWithTrace_state st content t0 t1 h]
  obtain ⟨hc, hids, hst⟩ := h
  refine ⟨?_, ?_, ?_⟩
  · simp [hc]
  · simp only [List.map_append, hids, List.length_append, List.length_map,
      List.length_range, List.map_cons, List.map_nil, List.length_cons,
      List.length_nil]
    rw [List.range_succ, List.map_append]
    simp [completedTraceOf, hc]
  · intro tr htr
    rcases List.mem_append.mp htr with hmem | hmem
    · exact hst tr hmem
    · simp only [List.mem_singleton] at hmem
      rw [hmem]
      rfl

theorem runCalls_good (inputs : List (List Char × ℚ × ℚ)) (st : ArchState)
    (h : GoodState st) : GoodState (runCalls st inputs) := by
  induction inputs generalizing st with
  | nil => exact h
  | cons x rest ih =>
    exact ih _ (goodState_step st x.1 x.2.1 x.2.2 h)

theorem runCalls_count (inputs : List (List Char × ℚ × ℚ)) (st : ArchState)
    (h : GoodState st) :
    (runCalls st inputs).interceptionCount =
      st.interceptionCount + inputs.length := by
  induction inputs generalizing st with
  | nil => simp [runCalls]
  | cons x rest ih =>
    simp only [runCalls]
    rw [ih _ (goodState_step st x.1 x.2.1 x.2.2 h),
      processWithTrace_state st x.1 x.2.1 x.2.2 h]
    simp only [List.length_cons]
    omega

theorem runCalls_init_length (inputs : List (List Char × ℚ × ℚ)) :
    (runCalls initState inputs).traceLog.length = inputs.length := by
  have hg := runCalls_good inputs initState goodState_init
  have hc := runCalls_count inputs initState goodState_init
  rw [← hg.1, hc]
  simp [initState]

end Phantom

namespace Phantom

theorem insertDesc_perm (f : Finding) (l : List Finding) :
    List.Perm (insertDesc f l) (f :: l) := by
  induction l with
  | nil => exact List.Perm.refl _
  | cons g gs ih =>
    simp only [insertDesc]
    by_cases hle : g.startPos ≤ f.startPos
    · rw [if_pos hle]
    · rw [if_neg hle]
      exact (ih.cons g).trans (List.Perm.swap f g gs)

theorem sortDescByStart_perm (l : List Finding) :
    List.Perm (sortDescByStart l) l := by
  induction l with
  | nil => exact List.Perm.refl _
  | cons f fs ih =>
    exact (insertDesc_perm f (sortDescByStart fs)).trans (ih.cons f)

theorem foldl_redactStep_log (pf : Bool) (l : List Finding) (txt : List Char)
    (acc : List RedactionRecord) :
    (l.foldl (redactStep pf) (txt, acc)).2 = acc ++ l.map (mkRecord pf) := by
  induction l generalizing txt acc with
  | nil => simp
  | cons f fs ih =>
    simp only [List.foldl_cons, redactStep, List.map_cons]
    rw [ih]
    simp

theorem redactText_log (text : List Char) (pf : Bool) :
    (redactText text pf).2 =
      (sortDescByStart (inspectText text)).map (mkRecord pf) := by
  unfold redactText
  rw [foldl_redactStep_log]
  simp

/-- C5: for every input text, `redact_text` produces exactly one
`RedactionRecord` per finding returned by detection on that text (equal
total counts), and the multiset of (kind, severity, span) triples carried by
the records is exactly the multiset of those triples over the findings, so
each record preserves its finding's kind, severity and original pre-rewrite
span. -/
theorem redactText_count_conservation (text : List Char) (pf : Bool) :
    ((redactText text pf).2).length = (inspectText text).length ∧
    List.Perm
      (((redactText text pf).2).map
        (fun r => (r.rtype, r.severity, r.startPos, r.stopPos)))
      ((inspectText text).map
        (fun f => (f.ftype, f.severity, f.startPos, f.endPos))) := by
  have hlog := redactText_log text pf
  constructor
  · rw [hlog, List.length_map]
    exact (sortDescByStart_perm _).length_eq
  · rw [hlog, List.map_map]
    exact (sortDescByStart_perm (inspectText text)).map _

/-- C8: under `preserve_format=True`, every redaction record's value is the
first 2 original characters followed by asterisks (keeping the original
length) when the original is longer than 4 characters, and all asterisks
otherwise. -/
theorem redactText_preserveFormat_mask (text : List Char)
    (r : RedactionRecord) (h : r ∈ (redactText text true).2) :
    (4 < r.original.length →
      r.redacted = r.original.take 2 ++
        List.replicate (r.original.length - 2) '*' ∧
      r.redacted.length = r.original.length) ∧
    (r.original.length ≤ 4 →
      r.redacted = List.replicate r.original.length '*') := by
  rw [redactText_log] at h
  obtain ⟨f, _, hr⟩ := List.mem_map.mp h
  subst hr
  simp only [mkRecord, redValue, if_pos, maskValue]
  constructor
  · intro hlen
    rw [if_pos hlen]
    refine ⟨rfl, ?_⟩
    simp only [List.length_append, List.length_take, List.length_replicate]
    omega
  · intro hlen
    rw [if_neg (by omega)]

/-- Witness for C8: on `"pwd:abcde"` the single (password) redaction record
has a 9-character original, and its redacted value is `pw*******`. -/
theorem redactText_preserveFormat_mask_witness :
    ∃ r : RedactionRecord, r ∈ (redactText "pwd:abcde".toList true).2 ∧
      ((4 < r.original.length →
        r.redacted = r.original.take 2 ++
          List.replicate (r.original.length - 2) '*' ∧
        r.redacted.length = r.original.length) ∧
      (r.original.length ≤ 4 →
        r.redacted = List.replicate r.original.length '*')) :=
  ⟨⟨"password", "pwd:abcde".toList, "pw*******".toList, 0, 9, "HIGH"⟩,
    by decide,
    redactText_preserveFormat_mask "pwd:abcde".toList _ (by decide)⟩

/-- C9: when detection finds nothing in a text, `redact_text` returns the
text unchanged together with an empty redaction log, for either value of
`preserve_format`. -/
theorem redactText_no_findings (text : List Char) (pf : Bool)
    (h : inspectText text = []) : redactText text pf = (text, []) := by
  unfold redactText
  rw [h]
  rfl

/-- Witness for C9: `"Hello world"` has no findings and is returned
unchanged. -/
theorem redactText_no_findings_witness :
    inspectText "Hello world".toList = ([] : List Finding) ∧
    redactText "Hello world".toList true = ("Hello world".toList, []) :=
  ⟨by decide, redactText_no_findings "Hello world".toList true (by decide)⟩

end Phantom

namespace Phantom

/-- Spec-side view: the completed traces in the full history. -/
def specCompletedTraces (st : ArchState) : List Trace :=
  st.traceLog.filter (fun tr => tr.status = "completed")

/-- The redaction count a trace actually records: the sum of the
`'redactions_made'` entries over its `PHANTOM_REDACT` events (the key
`process_with_trace` writes). -/
def traceRecordedRedactions (tr : Trace) : Nat :=
  (tr.events.map (fun e =>
    if e.etype = "PHANTOM_REDACT" then e.redactionsMade.getD 0 else 0)).sum

/-- Spec-side view: the sum of the redaction counts recorded in the
`PHANTOM_REDACT` events of traces with status completed — what the claim
says `total_redactions` equals. -/
def specRecordedRedactions (st : ArchState) : Nat :=
  ((specCompletedTraces st).map traceRecordedRedactions).sum

theorem runCalls_traceRedactions_zero (inputs : List (List Char × ℚ × ℚ))
    (st : ArchState) (hg : GoodState st)
    (h0 : ∀ tr ∈ st.traceLog, traceRedactions tr = 0) :
    ∀ tr ∈ (runCalls st inputs).traceLog, traceRedactions tr = 0 := by
  induction inputs generalizing st with
  | nil => exact h0
  | cons x rest ih =>
    apply ih _ (goodState_step st x.1 x.2.1 x.2.2 hg)
    intro tr htr
    rw [processWithTrace_state st x.1 x.2.1 x.2.2 hg] at htr
    rcases List.mem_append.mp htr with hmem | hmem
    · exact h0 tr hmem
    · simp only [List.mem_singleton] at hmem
      subst hmem
      rfl

/-- C1 (code bug): `get_statistics` sums `event['data'].get('redactions', 0)`
over `PHANTOM_REDACT` events, but `process_with_trace` records each trace's
redaction count under the different key `'redactions_made'` (the
`'redactions'` key is written only by the `intercept` decorator path). So
after every sequence of `process_with_trace` calls `total_redactions` is 0,
while the redaction counts actually recorded in the completed traces'
`PHANTOM_REDACT` events can be positive: one call on `"pwd:abcde"` records
the count 1 and `get_statistics` still reports 0, contradicting the claim's
`total_redactions` equation. -/
theorem getStatistics_redactions_bug :
    (∀ inputs : List (List Char × ℚ × ℚ),
      (getStatistics (runCalls initState inputs)).totalRedactions = 0) ∧
    specRecordedRedactions
      (runCalls initState [("pwd:abcde".toList, 0, 1)]) = 1 ∧
    (getStatistics
      (runCalls initState [("pwd:abcde".toList, 0, 1)])).totalRedactions
      = 0 := by
  refine ⟨?_, by decide, by decide⟩
  intro inputs
  have hzero := runCalls_traceRedactions_zero inputs initState goodState_init
    (by intro tr htr; simp [initState] at htr)
  simp only [getStatistics]
  apply List.sum_eq_zero
  intro x hx
  obtain ⟨tr, htr, hxval⟩ := List.mem_map.mp hx
  rw [← hxval]
  exact hzero tr (List.mem_of_mem_filter htr)

/-- C7: across any number of sequential `process_with_trace` calls the trace
ids are the zero-padded `TRACE-0001, TRACE-0002, …` sequence in creation
order, hence strictly increasing in their sequence number and pairwise
distinct; `total_interceptions` equals the number of calls, and three calls
yield exactly the ids `TRACE-0001`, `TRACE-0002`, `TRACE-0003`. -/
theorem traceIds_monotone (inputs : List (List Char × ℚ × ℚ)) :
    (runCalls initState inputs).traceLog.map (fun tr => tr.traceId) =
      (List.range inputs.length).map (fun i => traceIdChars (i + 1)) ∧
    List.Pairwise (fun a b => idVal a < idVal b ∧ a ≠ b)
      ((runCalls initState inputs).traceLog.map (fun tr => tr.traceId)) ∧
    (getStatistics (runCalls initState inputs)).totalInterceptions =
      inputs.length ∧
    (inputs.length = 3 →
      (runCalls initState inputs).traceLog.map (fun tr => tr.traceId) =
        ["TRACE-0001".toList, "TRACE-0002".toList, "TRACE-0003".toList]) := by
  have hg := runCalls_good inputs initState goodState_init
  have hlen := runCalls_init_length inputs
  have hids : (runCalls initState inputs).traceLog.map
      (fun tr => tr.traceId) =
      (List.range inputs.length).map (fun i => traceIdChars (i + 1)) := by
    rw [hg.2.1, hlen]
  refine ⟨hids, ?_, ?_, ?_⟩
  · rw [hids]
    apply List.pairwise_map.mpr
    apply (List.pairwise_lt_range inputs.length).imp
    intro i j hij
    constructor
    · rw [idVal_traceIdChars, idVal_traceIdChars]
      omega
    · intro hEq
      have := traceIdChars_injective _ _ hEq
      omega
  · have := runCalls_count inputs initState goodState_init
    simp only [getStatistics]
    rw [this]
    simp [initState]
  · intro h3
    rw [hids, h3]
    decide

/-- Witness for C7: three concrete calls yield the three expected ids. -/
theorem traceIds_monotone_witness :
    (runCalls initState
      [("a".toList, 0, 1), ("b".toList, 2, 3), ("c".toList, 4, 5)]).traceLog.map
        (fun tr => tr.traceId) =
      ["TRACE-0001".toList, "TRACE-0002".toList, "TRACE-0003".toList] :=
  (traceIds_monotone
    [("a".toList, 0, 1), ("b".toList, 2, 3), ("c".toList, 4, 5)]).2.2.2
    (by decide)

/-- C6: a completed `process_with_trace` invocation leaves behind a trace
with exactly 4 events in the fixed order `AGENT_READ`, `ARCHESTRA_INTERCEPT`
(the INTERCEPT phase), `PHANTOM_REDACT` (the REDACT phase),
`SAFE_DATA_DELIVERED` (the DELIVER phase), status `completed`, and an end
time at least its start time (the clock readings being monotone). -/
theorem processWithTrace_trace_complete (inputs : List (List Char × ℚ × ℚ))
    (content : List Char) (t0 t1 : ℚ) (h : t0 ≤ t1) :
    ∃ tr : Trace,
      ((processWithTrace (runCalls initState inputs) content t0
          t1).1).traceLog.getLast? = some tr ∧
      tr.events.map (fun e => e.etype) =
        ["AGENT_READ", "ARCHESTRA_INTERCEPT", "PHANTOM_REDACT",
          "SAFE_DATA_DELIVERED"] ∧
      tr.events.length = 4 ∧
      tr.status = "completed" ∧
      tr.endTime = some t1 ∧
      tr.startTime ≤ t1 := by
  rw [processWithTrace_state _ content t0 t1
    (runCalls_good inputs initState goodState_init)]
  refine ⟨completedTraceOf
    ((runCalls initState inputs).interceptionCount + 1) t0 t1 none
    (some (redactDocument content).redactionCount),
    ?_, rfl, rfl, rfl, rfl, h⟩
  exact List.getLast?_concat _

/-- Witness for C6: one call on a fresh interceptor at clock readings 0, 1. -/
theorem processWithTrace_trace_complete_witness :
    ∃ tr : Trace,
      ((processWithTrace (runCalls initState []) "hi".toList 0
          1).1).traceLog.getLast? = some tr ∧
      tr.events.map (fun e => e.etype) =
        ["AGENT_READ", "ARCHESTRA_INTERCEPT", "PHANTOM_REDACT",
          "SAFE_DATA_DELIVERED"] ∧
      tr.events.length = 4 ∧
      tr.status = "completed" ∧
      tr.endTime = some 1 ∧
      tr.startTime ≤ 1 :=
  processWithTrace_trace_complete [] "hi".toList 0 1 (by norm_num)

/-- C4: a function wrapped by `intercept` is applied to the redacted version
of the content — for every wrapped `f` the wrapper's result is exactly
`f` applied to the redacted content, so `f` never observes the original —
and the wrapper returns that value with the call's trace marked completed. -/
theorem intercept_redacts_argument {α : Type}
    (inputs : List (List Char × ℚ × ℚ)) (f : List Char → α)
    (content : List Char) (t0 t1 : ℚ) :
    (interceptWrapper (runCalls initState inputs) f content t0 t1).2 =
      f (redactDocument content).redacted ∧
    ∃ tr : Trace,
      ((interceptWrapper (runCalls initState inputs) f content t0
          t1).1).traceLog.getLast? = some tr ∧
      tr.status = "completed" := by
  refine ⟨rfl, ?_⟩
  have hsteps : (interceptWrapper (runCalls initState inputs) f content t0
      t1).1 = interceptionSteps (runCalls initState inputs) t0 t1
      (some (redactDocument content).redactionCount) none :=
    rfl
  rw [hsteps, interceptionSteps_spec _ t0 t1
    (some (redactDocument content).redactionCount) none
    (goodState_fresh _ (runCalls_good inputs initState goodState_init))]
  exact ⟨completedTraceOf
    ((runCalls initState inputs).interceptionCount + 1) t0 t1
    (some (redactDocument content).redactionCount) none,
    List.getLast?_concat _, rfl⟩

/-- C3 counterexample: after one call, `get_trace_history(0)` returns the
full one-element history, not the empty list the claim predicts
(`trace_log[-0:]` is `trace_log[0:]` in Python). -/
theorem getTraceHistory_zero_counterexample :
    (getTraceHistory (runCalls initState [("hi".toList, 0, 1)]) 0).length = 1
      ∧
    ¬ getTraceHistory (runCalls initState [("hi".toList, 0, 1)]) 0 = [] := by
  constructor
  · decide
  · decide

/-- C3 (amended): for `limit ≥ 1`, `get_trace_history(limit)` returns the
`min(limit, n)` most recently created traces in creation order (oldest first
within the window, older traces dropped); for `limit = 0` it returns the
entire history rather than the empty list. -/
theorem getTraceHistory_spec (st : ArchState) (limit : Nat) :
    (1 ≤ limit →
      getTraceHistory st limit = (st.traceLog.reverse.take limit).reverse ∧
      (getTraceHistory st limit).length = min limit st.traceLog.length) ∧
    (limit = 0 → getTraceHistory st 0 = st.traceLog) := by
  constructor
  · intro h1
    have hne : ¬ limit = 0 := by omega
    have hdrop : getTraceHistory st limit =
        st.traceLog.drop (st.traceLog.length - limit) := by
      unfold getTraceHistory
      rw [if_neg hne]
    constructor
    · rw [hdrop]
      have hrt := @List.reverse_take Trace st.traceLog.reverse limit
      simp only [List.length_reverse, List.reverse_reverse] at hrt
      exact hrt.symm
    · rw [hdrop, List.length_drop]
      omega
  · intro h0
    subst h0
    unfold getTraceHistory
    rw [if_pos rfl]

/-- Witness for C3: on a one-trace history, `limit = 2` returns the single
trace (window of size `min 2 1 = 1`) and `limit = 0` returns the whole
history. -/
theorem getTraceHistory_spec_witness :
    (getTraceHistory (runCalls initState [("hi".toList, 0, 1)]) 2 =
      (((runCalls initState
          [("hi".toList, 0, 1)]).traceLog.reverse.take 2)).reverse ∧
     (getTraceHistory (runCalls initState [("hi".toList, 0, 1)]) 2).length =
      min 2 (runCalls initState [("hi".toList, 0, 1)]).traceLog.length) ∧
    getTraceHistory (runCalls initState [("hi".toList, 0, 1)]) 0 =
      (runCalls initState [("hi".toList, 0, 1)]).traceLog :=
  ⟨(getTraceHistory_spec (runCalls initState [("hi".toList, 0, 1)]) 2).1
      (by norm_num),
   (getTraceHistory_spec (runCalls initState [("hi".toList, 0, 1)]) 0).2 rfl⟩

end Phantom

namespace Phantom

theorem getSeverity_mem (s : String) :
    getSeverity s ∈ (["HIGH", "MEDIUM", "LOW"] : List String) := by
  unfold getSeverity
  split
  · simp
  · split
    · simp
    · simp

theorem findingsFor_severity (text : List Char) (name : String) (r : Regex)
    (f : Finding) (h : f ∈ findingsFor text name r) :
    f.severity = getSeverity name := by
  obtain ⟨m, _, hf⟩ := List.mem_map.mp h
  rw [← hf]

theorem inspectText_severity (text : List Char) (f : Finding)
    (h : f ∈ inspectText text) :
    f.severity ∈ (["HIGH", "MEDIUM", "LOW"] : List String) := by
  simp only [inspectText, List.mem_append] at h
  rcases h with ((((((h | h) | h) | h) | h) | h) | h) <;>
    (rw [findingsFor_severity _ _ _ _ h]; exact getSeverity_mem _)

theorem redactLog_severity (text : List Char) (pf : Bool)
    (r : RedactionRecord) (h : r ∈ (redactText text pf).2) :
    r.severity ∈ (["HIGH", "MEDIUM", "LOW"] : List String) := by
  rw [redactText_log] at h
  obtain ⟨f, hf, hr⟩ := List.mem_map.mp h
  have hmem : f ∈ inspectText text :=
    (sortDescByStart_perm (inspectText text)).subset hf
  rw [← hr]
  exact inspectText_severity text f hmem

theorem incrKey_some (s : List (String × Nat)) (key : String)
    (h : key ∈ s.map Prod.fst) :
    ∃ s2, incrKey s key = some s2 ∧ s2.map Prod.fst = s.map Prod.fst := by
  induction s with
  | nil => simp at h
  | cons kv rest ih =>
    by_cases hk : kv.1 = key
    · refine ⟨(kv.1, kv.2 + 1) :: rest, ?_, by simp⟩
      simp only [incrKey, if_pos hk]
    · have hmem : key ∈ rest.map Prod.fst := by
        simp only [List.map_cons, List.mem_cons] at h
        rcases h with h | h
        · exact absurd h.symm hk
        · exact h
      obtain ⟨r2, hr2, hkeys⟩ := ih hmem
      refine ⟨(kv.1, kv.2) :: r2, ?_, by simp [hkeys]⟩
      simp only [incrKey, if_neg hk, hr2]
      rfl

theorem summaryGo_some (log : List RedactionRecord)
    (ty sv : List (String × Nat))
    (h : ∀ r ∈ log, r.severity ∈ sv.map Prod.fst) :
    ∃ p, summaryGo log ty sv = some p ∧
      p.2.map Prod.fst = sv.map Prod.fst := by
  induction log generalizing ty sv with
  | nil => exact ⟨(ty, sv), rfl, rfl⟩
  | cons r rest ih =>
    obtain ⟨sv2, hsv2, hkeys⟩ :=
      incrKey_some sv r.severity (h r (List.mem_cons_self r rest))
    have hrest : ∀ x ∈ rest, x.severity ∈ sv2.map Prod.fst := by
      intro x hx
      rw [hkeys]
      exact h x (List.mem_cons_of_mem r hx)
    obtain ⟨p, hp, hpk⟩ := ih (setIncr ty r.rtype) sv2 hrest
    refine ⟨p, ?_, hpk.trans hkeys⟩
    simp only [summaryGo, hsv2, hp]

/-- C10: every finding carries severity `HIGH`, `MEDIUM` or `LOW` (any
pattern kind outside the high/medium lists maps to `LOW`), so the
`by_severity` increment in `_create_summary` always finds its key — the
`KeyError` branch is unreachable on logs produced by `redact_text` — and the
resulting summary's `by_severity` map has exactly the keys `HIGH`, `MEDIUM`,
`LOW`. -/
theorem createSummary_total (text : List Char) (pf : Bool) :
    (∀ f ∈ inspectText text,
      f.severity ∈ (["HIGH", "MEDIUM", "LOW"] : List String)) ∧
    ∃ s : RedactionSummary,
      createSummary ((redactText text pf).2) = some s ∧
      s.bySeverity.map Prod.fst = ["HIGH", "MEDIUM", "LOW"] := by
  refine ⟨fun f hf => inspectText_severity text f hf, ?_⟩
  have hsv : ∀ r ∈ (redactText text pf).2,
      r.severity ∈ bySevInit.map Prod.fst := by
    intro r hr
    have := redactLog_severity text pf r hr
    simpa [bySevInit] using this
  obtain ⟨p, hp, hpk⟩ := summaryGo_some ((redactText text pf).2) [] bySevInit
    hsv
  refine ⟨⟨((redactText text pf).2).length, p.1, p.2⟩, ?_, ?_⟩
  · unfold createSummary
    rw [hp]
    rfl
  · simpa [bySevInit] using hpk

/-- Witness for C10: the summary for the `"pwd:abcde"` redaction log exists
with the three severity keys. -/
theorem createSummary_total_witness :
    (∀ f ∈ inspectText "pwd:abcde".toList,
      f.severity ∈ (["HIGH", "MEDIUM", "LOW"] : List String)) ∧
    ∃ s : RedactionSummary,
      createSummary ((redactText "pwd:abcde".toList true).2) = some s ∧
      s.bySeverity.map Prod.fst = ["HIGH", "MEDIUM", "LOW"] :=
  createSummary_total "pwd:abcde".toList true

end Phantom

namespace Phantom

theorem maxRunF_append (p : Char → Bool) (b rest : List Char)
    (h : ∀ c ∈ b, p c = true) :
    maxRunF p (b ++ rest) = b.length + maxRunF p rest := by
  induction b with
  | nil => simp
  | cons c cs ih =>
    have hc : p c = true := h c (List.mem_cons_self c cs)
    simp only [List.cons_append, List.append_eq, maxRunF, hc, if_true,
      List.length_cons, ih (fun x hx => h x (List.mem_cons_of_mem c hx))]
    omega

theorem runM_rep_exact (p : Char → Bool) (n : Nat) (prev : Option Char)
    (k : Cont) (b rest r : List Char) (hlen : b.length = n)
    (hall : ∀ c ∈ b, p c = true) (hk : k (lastOr prev b) rest = some r) :
    (Regex.rep p n (some n)).runM prev (b ++ rest) k = some (b ++ r) := by
  have hmax : maxRun p (some n) (b ++ rest) = n := by
    show min (maxRunF p (b ++ rest)) n = n
    rw [maxRunF_append p b rest hall, hlen]
    omega
  simp only [Regex.runM, hmax, Nat.lt_irrefl, if_false, Nat.sub_self]
  simp only [repGo, repAttempt, ← hlen, List.take_left, List.drop_left, hk]
  rfl

theorem runM_opt_commit (a : Regex) (prev : Option Char) (s : List Char)
    (k : Cont) (r : List Char) (h : a.runM prev s k = some r) :
    (Regex.opt a).runM prev s k = some r := by
  simp only [Regex.runM, h]

theorem runM_opt_skip (a : Regex) (prev : Option Char) (s : List Char)
    (k : Cont) (r : List Char) (h : a.runM prev s k = none)
    (hk : k prev s = some r) : (Regex.opt a).runM prev s k = some r := by
  simp only [Regex.runM, h, hk]

theorem runM_cls_cons (p : Char → Bool) (prev : Option Char) (c : Char)
    (rest : List Char) (k : Cont) (r : List Char) (hp : p c = true)
    (hk : k (some c) rest = some r) :
    (Regex.cls p).runM prev (c :: rest) k = some (c :: r) := by
  simp only [Regex.runM, hp, if_true, hk]
  rfl

theorem runM_cls_fail (p : Char → Bool) (prev : Option Char) (c : Char)
    (rest : List Char) (k : Cont) (hp : p c = false) :
    (Regex.cls p).runM prev (c :: rest) k = none := by
  simp only [Regex.runM, hp]
  rfl

theorem runM_wb_pass (prev : Option Char) (s : List Char) (k : Cont)
    (r : List Char) (h : boundaryB prev s.head? = true)
    (hk : k prev s = some r) : Regex.wb.runM prev s k = some r := by
  simp only [Regex.runM, h, if_true, hk]

theorem isDigit_isWordChar (c : Char) (h : c.isDigit = true) :
    isWordChar c = true := by
  simp [isWordChar, Char.isAlphanum, h]

theorem isDigit_not_sepC (c : Char) (h : c.isDigit = true) :
    sepC c = false := by
  cases hs : sepC c with
  | false => rfl
  | true =>
    exfalso
    have hmem : c = '-' ∨ c = ' ' ∨ c = '\t' ∨ c = '\n' ∨ c = '\r' ∨
        c = '\x0b' ∨ c = '\x0c' := by
      simp only [sepC, isSpaceChar, Bool.or_eq_true, beq_iff_eq] at hs
      tauto
    rcases hmem with h1 | h1 | h1 | h1 | h1 | h1 | h1 <;> subst h1 <;>
      exact absurd h (by decide)

theorem lastOr_of_ne_nil (prev : Option Char) (l : List Char)
    (h : l ≠ []) : ∃ c, lastOr prev l = some c ∧ c ∈ l := by
  refine ⟨l.getLast h, ?_, List.getLast_mem h⟩
  unfold lastOr
  rw [List.getLast?_eq_getLast l h]

theorem lastOr_nil (prev : Option Char) : lastOr prev [] = prev := rfl

theorem lastOr_single (prev : Option Char) (c : Char) :
    lastOr prev [c] = some c := rfl

end Phantom

namespace Phantom

/-- One `\d{4}[-\s]?` unit of the credit-card pattern, followed by the rest
of the pattern `t`: consumes a 4-digit block and (exactly when present) one
separator character, then continues with `t`. When no separator is present
the next character must be a digit (the head of the following block), so the
greedy optional separator fails and falls through. -/
theorem runM_blockSep (t : Regex) (prev : Option Char) (k : Cont)
    (b sep rest2 r : List Char) (hb : b.length = 4)
    (hd : ∀ c ∈ b, digitC c = true)
    (hsep : (sep = [] ∧ ∃ d rest3, rest2 = d :: rest3 ∧ digitC d = true) ∨
      (∃ sc, sep = [sc] ∧ sepC sc = true))
    (ht : t.runM (lastOr (lastOr prev b) sep) rest2 k = some r) :
    (Regex.seq ccBlock (Regex.seq ccSep t)).runM prev (b ++ (sep ++ rest2)) k
      = some (b ++ (sep ++ r)) := by
  show ccBlock.runM prev (b ++ (sep ++ rest2))
    (fun p1 s1 => (Regex.seq ccSep t).runM p1 s1 k) = _
  apply runM_rep_exact digitC 4 prev _ b (sep ++ rest2) (sep ++ r) hb hd
  show (Regex.seq ccSep t).runM (lastOr prev b) (sep ++ rest2) k = _
  show ccSep.runM (lastOr prev b) (sep ++ rest2)
    (fun p2 s2 => t.runM p2 s2 k) = _
  rcases hsep with ⟨hnil, d, rest3, hrest, hdig⟩ | ⟨sc, hsc, hsepc⟩
  · subst hnil
    simp only [List.nil_append]
    rw [hrest]
    apply runM_opt_skip
    · exact runM_cls_fail sepC _ d rest3 _ (isDigit_not_sepC d hdig)
    · rw [← hrest]
      rw [lastOr_nil] at ht
      exact ht
  · subst hsc
    simp only [List.singleton_append]
    apply runM_opt_commit
    apply runM_cls_cons sepC _ sc rest2 _ r hsepc
    rw [lastOr_single] at ht
    exact ht

/-- The final `\d{4}\b` of the credit-card pattern: consumes one 4-digit
block; the word boundary after it holds because what follows (`post`) is
either nothing or starts with a non-word character. -/
theorem runM_lastBlock (prev : Option Char) (b post : List Char)
    (hb : b.length = 4) (hd : ∀ c ∈ b, digitC c = true)
    (hpost : post.head? = none ∨
      ∃ c, post.head? = some c ∧ isWordChar c = false) :
    (Regex.seq ccBlock Regex.wb).runM prev (b ++ post) (fun _ _ => some []) =
      some b := by
  have hne : b ≠ [] := by
    intro hnil
    rw [hnil] at hb
    simp at hb
  obtain ⟨c, hc, hcm⟩ := lastOr_of_ne_nil prev b hne
  have hres : (Regex.seq ccBlock Regex.wb).runM prev (b ++ post)
      (fun _ _ => some []) = some (b ++ []) := by
    show ccBlock.runM prev (b ++ post)
      (fun p1 s1 => Regex.wb.runM p1 s1 (fun _ _ => some [])) = _
    apply runM_rep_exact digitC 4 prev _ b post [] hb hd
    apply runM_wb_pass
    · rw [hc]
      rcases hpost with hph | ⟨c2, hph, hw⟩
      · rw [hph]
        simp only [boundaryB]
        rw [isDigit_isWordChar c (hd c hcm)]
        rfl
      · rw [hph]
        simp only [boundaryB]
        rw [isDigit_isWordChar c (hd c hcm), hw]
        rfl
    · rfl
  simpa using hres

theorem runM_wb_eval (prev : Option Char) (s : List Char) (k : Cont)
    (h : boundaryB prev s.head? = true) :
    Regex.wb.runM prev s k = k prev s := by
  simp [Regex.runM, h]

theorem runM_wb_fail (prev : Option Char) (s : List Char) (k : Cont)
    (h : boundaryB prev s.head? = false) :
    Regex.wb.runM prev s k = none := by
  simp [Regex.runM, h]

/-- A class repetition with a positive minimum fails when the input is empty
or starts with a character outside the class. -/
theorem runM_rep_fail (p : Char → Bool) (lo : Nat) (hi : Option Nat)
    (prev : Option Char) (s : List Char) (k : Cont) (hlo : 0 < lo)
    (hs : s = [] ∨ ∃ c rest, s = c :: rest ∧ p c = false) :
    (Regex.rep p lo hi).runM prev s k = none := by
  have h0 : maxRunF p s = 0 := by
    rcases hs with h | ⟨c, rest, hcr, hc⟩
    · rw [h]
      rfl
    · rw [hcr]
      simp [maxRunF, hc]
  have hm : maxRun p hi s < lo := by
    cases hi with
    | none => simpa [maxRun, h0] using hlo
    | some h2 =>
      simp only [maxRun, h0, Nat.zero_min]
      exact hlo
  simp only [Regex.runM]
  rw [if_pos hm]

end Phantom

namespace Phantom

theorem headDigit_of_block (next tail : List Char) (hlen : next.length = 4)
    (hdig : ∀ c ∈ next, digitC c = true) :
    ∃ d rest3, next ++ tail = d :: rest3 ∧ digitC d = true := by
  cases next with
  | nil => simp at hlen
  | cons d rest =>
    exact ⟨d, rest ++ tail, rfl, hdig d (List.mem_cons_self d rest)⟩

/-- The credit-card pattern cannot match at a position whose next character
is not a digit (or at the end of input): after the leading word boundary it
immediately requires four digits. -/
theorem matchAt_creditCard_noDigit (prev : Option Char) (s : List Char)
    (hs : s = [] ∨ ∃ c rest, s = c :: rest ∧ digitC c = false) :
    matchAt creditCardRe prev s = none := by
  unfold matchAt creditCardRe
  show Regex.wb.runM prev s
    (fun p s2 => (Regex.seq ccBlock (Regex.seq ccSep (Regex.seq ccBlock
      (Regex.seq ccSep (Regex.seq ccBlock (Regex.seq ccSep
        (Regex.seq ccBlock Regex.wb))))))).runM p s2 (fun _ _ => some [])) =
    none
  cases hbd : boundaryB prev s.head? with
  | false => exact runM_wb_fail prev s _ hbd
  | true =>
    rw [runM_wb_eval prev s _ hbd]
    show ccBlock.runM prev s
      (fun p2 s2 => (Regex.seq ccSep (Regex.seq ccBlock (Regex.seq ccSep
        (Regex.seq ccBlock (Regex.seq ccSep
          (Regex.seq ccBlock Regex.wb)))))).runM p2 s2
        (fun _ _ => some [])) = none
    exact runM_rep_fail digitC 4 (some 4) prev s _ (by norm_num) hs

/-- A full credit-card match at the current position: four 4-digit blocks
joined by optional single space/dash separators, with a non-word character
(or nothing) before the position and after the last block. The matched
characters are exactly the 16-digit sequence, not including `post`. -/
theorem matchAt_creditCard_gen (prev : Option Char)
    (hprev : prev = none ∨ ∃ c, prev = some c ∧ isWordChar c = false)
    (b1 s1 b2 s2 b3 s3 b4 post : List Char)
    (hb1 : b1.length = 4) (hb2 : b2.length = 4) (hb3 : b3.length = 4)
    (hb4 : b4.length = 4)
    (hd1 : ∀ c ∈ b1, digitC c = true) (hd2 : ∀ c ∈ b2, digitC c = true)
    (hd3 : ∀ c ∈ b3, digitC c = true) (hd4 : ∀ c ∈ b4, digitC c = true)
    (hs1 : s1 = [] ∨ ∃ sc, s1 = [sc] ∧ sepC sc = true)
    (hs2 : s2 = [] ∨ ∃ sc, s2 = [sc] ∧ sepC sc = true)
    (hs3 : s3 = [] ∨ ∃ sc, s3 = [sc] ∧ sepC sc = true)
    (hpost : post.head? = none ∨
      ∃ c, post.head? = some c ∧ isWordChar c = false) :
    matchAt creditCardRe prev
      (b1 ++ (s1 ++ (b2 ++ (s2 ++ (b3 ++ (s3 ++ (b4 ++ post))))))) =
    some (b1 ++ (s1 ++ (b2 ++ (s2 ++ (b3 ++ (s3 ++ b4)))))) := by
  have mk3 : (s3 = [] ∧ ∃ d r3, b4 ++ post = d :: r3 ∧ digitC d = true) ∨
      (∃ sc, s3 = [sc] ∧ sepC sc = true) := by
    rcases hs3 with h | h
    · exact Or.inl ⟨h, headDigit_of_block b4 post hb4 hd4⟩
    · right; exact h
  have mk2 : (s2 = [] ∧ ∃ d r3, b3 ++ (s3 ++ (b4 ++ post)) = d :: r3 ∧
      digitC d = true) ∨ (∃ sc, s2 = [sc] ∧ sepC sc = true) := by
    rcases hs2 with h | h
    · exact Or.inl ⟨h, headDigit_of_block b3 (s3 ++ (b4 ++ post)) hb3 hd3⟩
    · right; exact h
  have mk1 : (s1 = [] ∧
      ∃ d r3, b2 ++ (s2 ++ (b3 ++ (s3 ++ (b4 ++ post)))) = d :: r3 ∧
        digitC d = true) ∨ (∃ sc, s1 = [sc] ∧ sepC sc = true) := by
    rcases hs1 with h | h
    · exact Or.inl ⟨h,
        headDigit_of_block b2 (s2 ++ (b3 ++ (s3 ++ (b4 ++ post)))) hb2 hd2⟩
    · right; exact h
  have h3 : ∀ p3 : Option Char,
      (Regex.seq ccBlock (Regex.seq ccSep
        (Regex.seq ccBlock Regex.wb))).runM p3 (b3 ++ (s3 ++ (b4 ++ post)))
        (fun _ _ => some []) = some (b3 ++ (s3 ++ b4)) := by
    intro p3
    exact runM_blockSep (Regex.seq ccBlock Regex.wb) p3 _ b3 s3 (b4 ++ post)
      b4 hb3 hd3 mk3 (runM_lastBlock _ b4 post hb4 hd4 hpost)
  have h2 : ∀ p2 : Option Char,
      (Regex.seq ccBlock (Regex.seq ccSep (Regex.seq ccBlock
        (Regex.seq ccSep (Regex.seq ccBlock Regex.wb))))).runM p2
        (b2 ++ (s2 ++ (b3 ++ (s3 ++ (b4 ++ post))))) (fun _ _ => some []) =
        some (b2 ++ (s2 ++ (b3 ++ (s3 ++ b4)))) := by
    intro p2
    exact runM_blockSep _ p2 _ b2 s2 (b3 ++ (s3 ++ (b4 ++ post))) _ hb2 hd2
      mk2 (h3 _)
  have h1 : ∀ p1 : Option Char,
      (Regex.seq ccBlock (Regex.seq ccSep (Regex.seq ccBlock
        (Regex.seq ccSep (Regex.seq ccBlock (Regex.seq ccSep
          (Regex.seq ccBlock Regex.wb))))))).runM p1
        (b1 ++ (s1 ++ (b2 ++ (s2 ++ (b3 ++ (s3 ++ (b4 ++ post)))))))
        (fun _ _ => some []) =
        some (b1 ++ (s1 ++ (b2 ++ (s2 ++ (b3 ++ (s3 ++ b4)))))) := by
    intro p1
    exact runM_blockSep _ p1 _ b1 s1 (b2 ++ (s2 ++ (b3 ++ (s3 ++
      (b4 ++ post))))) _ hb1 hd1 mk1 (h2 _)
  obtain ⟨d, r3, hT, hd0⟩ := headDigit_of_block b1
    (s1 ++ (b2 ++ (s2 ++ (b3 ++ (s3 ++ (b4 ++ post)))))) hb1 hd1
  unfold matchAt creditCardRe
  show Regex.wb.runM prev
    (b1 ++ (s1 ++ (b2 ++ (s2 ++ (b3 ++ (s3 ++ (b4 ++ post)))))))
    (fun p s => (Regex.seq ccBlock (Regex.seq ccSep (Regex.seq ccBlock
      (Regex.seq ccSep (Regex.seq ccBlock (Regex.seq ccSep
        (Regex.seq ccBlock Regex.wb))))))).runM p s (fun _ _ => some [])) =
    some (b1 ++ (s1 ++ (b2 ++ (s2 ++ (b3 ++ (s3 ++ b4))))))
  apply runM_wb_pass
  · rw [hT]
    rcases hprev with hp | ⟨c0, hp, hw0⟩
    · subst hp
      simp only [List.head?_cons, boundaryB, isDigit_isWordChar d hd0]
      rfl
    · subst hp
      simp only [List.head?_cons, boundaryB, isDigit_isWordChar d hd0, hw0]
      rfl
  · exact h1 prev

theorem scanAux_step_match (r : Regex) (fuel : Nat) (prev : Option Char)
    (s : List Char) (pos : Nat) (m : List Char)
    (hm : matchAt r prev s = some m) (hne : m ≠ []) :
    scanAux r (fuel + 1) prev s pos =
      (pos, m) :: scanAux r fuel (lastOr prev m) (s.drop m.length)
        (pos + m.length) := by
  cases m with
  | nil => exact absurd rfl hne
  | cons c cs =>
    show scanCont (scanAux r fuel) prev s pos (matchAt r prev s) = _
    rw [hm]
    rfl

theorem scanAux_step_none (r : Regex) (fuel : Nat) (prev : Option Char)
    (c : Char) (s2 : List Char) (pos : Nat)
    (h : matchAt r prev (c :: s2) = none) :
    scanAux r (fuel + 1) prev (c :: s2) pos =
      scanAux r fuel (some c) s2 (pos + 1) := by
  show scanCont (scanAux r fuel) prev (c :: s2) pos
    (matchAt r prev (c :: s2)) = _
  rw [h]
  rfl

theorem lastOr_cons (prev : Option Char) (c : Char) (cs : List Char) :
    lastOr prev (c :: cs) = lastOr (some c) cs := by
  cases cs with
  | nil => rfl
  | cons d t =>
    unfold lastOr
    rw [List.getLast?_cons_cons,
      List.getLast?_eq_getLast (d :: t) (List.cons_ne_nil d t)]

/-- Scanning the credit-card pattern across a digit-free prefix finds no
match and arrives at the following position with the prefix's last
character as the previous-character marker. -/
theorem scanAux_pre (pre : List Char) :
    ∀ (rest : List Char) (prev : Option Char) (pos fuel : Nat),
      (∀ c ∈ pre, digitC c = false) →
      scanAux creditCardRe (pre.length + fuel) prev (pre ++ rest) pos =
        scanAux creditCardRe fuel (lastOr prev pre) rest
          (pos + pre.length) := by
  induction pre with
  | nil =>
    intro rest prev pos fuel _
    simp [lastOr_nil]
  | cons c cs ih =>
    intro rest prev pos fuel hpre
    have hc : digitC c = false := hpre c (List.mem_cons_self c cs)
    have hfuel : (c :: cs).length + fuel = cs.length + fuel + 1 := by
      simp only [List.length_cons]
      omega
    have hnone : matchAt creditCardRe prev (c :: (cs ++ rest)) = none :=
      matchAt_creditCard_noDigit prev _ (Or.inr ⟨c, cs ++ rest, rfl, hc⟩)
    rw [hfuel, List.cons_append,
      scanAux_step_none creditCardRe (cs.length + fuel) prev c (cs ++ rest)
        pos hnone,
      ih rest (some c) (pos + 1) fuel
        (fun x hx => hpre x (List.mem_cons_of_mem c hx)),
      lastOr_cons]
    have harith : pos + 1 + cs.length = pos + (c :: cs).length := by
      simp only [List.length_cons]
      omega
    rw [harith]

/-- Membership form of the scan: when the credit-card pattern matches
exactly `seqT` right after a digit-free prefix, the scan reports that match
at the prefix's length. -/
theorem findIter_creditCard_mem (pre seqT post : List Char)
    (hpre : ∀ c ∈ pre, digitC c = false) (hne : seqT ≠ [])
    (hm : matchAt creditCardRe (lastOr none pre) (seqT ++ post) =
      some seqT) :
    (pre.length, seqT) ∈ findIter creditCardRe (pre ++ (seqT ++ post)) := by
  unfold findIter
  have hfuel : (pre ++ (seqT ++ post)).length + 1 =
      pre.length + ((seqT ++ post).length + 1) := by
    simp only [List.length_append]
    omega
  rw [hfuel,
    scanAux_pre pre (seqT ++ post) none 0 ((seqT ++ post).length + 1) hpre,
    scanAux_step_match creditCardRe (seqT ++ post).length _ _ _ seqT hm hne]
  simp only [Nat.zero_add]
  exact List.mem_cons_self _ _

end Phantom

namespace Phantom

theorem getSeverity_creditCard : getSeverity "credit_card" = "HIGH" := by
  decide

/-- C2 (amended): the credit-card pattern requires four 4-digit groups, so
the claim's 13-16 digit range narrows to exactly 16. For every text
containing a standalone 16-digit sequence — four 4-digit blocks with
optional single space/dash separators, preceded by digit-free text whose
last character (if any) is a non-word character and followed by nothing or
by a non-word character — detection returns a `credit_card` finding of
severity HIGH covering exactly that sequence at its position in the text.
Standalone sequences of 13, 14 or 15 digits are not matched (see the
counterexample). -/
theorem inspectText_creditCard_16 (pre b1 s1 b2 s2 b3 s3 b4 post : List Char)
    (hpre : ∀ c ∈ pre, c.isDigit = false)
    (hpreb : pre.getLast? = none ∨
      ∃ c, pre.getLast? = some c ∧ isWordChar c = false)
    (hb1 : b1.length = 4) (hb2 : b2.length = 4) (hb3 : b3.length = 4)
    (hb4 : b4.length = 4)
    (hd1 : ∀ c ∈ b1, c.isDigit = true) (hd2 : ∀ c ∈ b2, c.isDigit = true)
    (hd3 : ∀ c ∈ b3, c.isDigit = true) (hd4 : ∀ c ∈ b4, c.isDigit = true)
    (hs1 : s1 = [] ∨ ∃ sc, s1 = [sc] ∧ sepC sc = true)
    (hs2 : s2 = [] ∨ ∃ sc, s2 = [sc] ∧ sepC sc = true)
    (hs3 : s3 = [] ∨ ∃ sc, s3 = [sc] ∧ sepC sc = true)
    (hpost : post.head? = none ∨
      ∃ c, post.head? = some c ∧ isWordChar c = false) :
    (⟨"credit_card", b1 ++ (s1 ++ (b2 ++ (s2 ++ (b3 ++ (s3 ++ b4))))),
        pre.length,
        pre.length +
          (b1 ++ (s1 ++ (b2 ++ (s2 ++ (b3 ++ (s3 ++ b4)))))).length,
        "HIGH"⟩ : Finding) ∈
    inspectText (pre ++
      ((b1 ++ (s1 ++ (b2 ++ (s2 ++ (b3 ++ (s3 ++ b4)))))) ++ post)) := by
  have hprev : lastOr none pre = none ∨
      ∃ c, lastOr none pre = some c ∧ isWordChar c = false := by
    rcases hpreb with h | ⟨c, hgl, hw⟩
    · left
      unfold lastOr
      rw [h]
    · right
      refine ⟨c, ?_, hw⟩
      unfold lastOr
      rw [hgl]
  have hmg := matchAt_creditCard_gen (lastOr none pre) hprev b1 s1 b2 s2 b3
    s3 b4 post hb1 hb2 hb3 hb4 hd1 hd2 hd3 hd4 hs1 hs2 hs3 hpost
  have hassoc : (b1 ++ (s1 ++ (b2 ++ (s2 ++ (b3 ++ (s3 ++ b4)))))) ++ post =
      b1 ++ (s1 ++ (b2 ++ (s2 ++ (b3 ++ (s3 ++ (b4 ++ post)))))) := by
    simp [List.append_assoc]
  have hm : matchAt creditCardRe (lastOr none pre)
      ((b1 ++ (s1 ++ (b2 ++ (s2 ++ (b3 ++ (s3 ++ b4)))))) ++ post) =
      some (b1 ++ (s1 ++ (b2 ++ (s2 ++ (b3 ++ (s3 ++ b4)))))) := by
    rw [hassoc]
    exact hmg
  have hne : b1 ++ (s1 ++ (b2 ++ (s2 ++ (b3 ++ (s3 ++ b4))))) ≠ [] := by
    cases b1 with
    | nil => simp at hb1
    | cons c cs => simp
  have hmem := findIter_creditCard_mem pre _ post hpre hne hm
  have hmemF := List.mem_map_of_mem
    (fun m : Nat × List Char =>
      (⟨"credit_card", m.2, m.1, m.1 + m.2.length,
        getSeverity "credit_card"⟩ : Finding)) hmem
  rw [getSeverity_creditCard] at hmemF
  unfold inspectText
  apply List.mem_append_left
  apply List.mem_append_left
  apply List.mem_append_left
  apply List.mem_append_left
  apply List.mem_append_left
  apply List.mem_append_left
  exact hmemF

/-- Witness for (amended) C2: inside the text `card: 4532 1234-5678 9010;ok`
the 16-digit sequence is found as a credit-card match covering it at
position 6. -/
theorem inspectText_creditCard_16_witness :
    (⟨"credit_card",
        "4532".toList ++ ([' '] ++ ("1234".toList ++ (['-'] ++
          ("5678".toList ++ ([' '] ++ "9010".toList))))),
        "card: ".toList.length,
        "card: ".toList.length +
          ("4532".toList ++ ([' '] ++ ("1234".toList ++ (['-'] ++
            ("5678".toList ++ ([' '] ++ "9010".toList)))))).length,
        "HIGH"⟩ : Finding) ∈
    inspectText ("card: ".toList ++
      (("4532".toList ++ ([' '] ++ ("1234".toList ++ (['-'] ++
        ("5678".toList ++ ([' '] ++ "9010".toList)))))) ++ ";ok".toList)) :=
  inspectText_creditCard_16 "card: ".toList "4532".toList [' ']
    "1234".toList ['-'] "5678".toList [' '] "9010".toList ";ok".toList
    (by decide) (Or.inr ⟨' ', rfl, by decide⟩)
    (by decide) (by decide) (by decide) (by decide)
    (by decide) (by decide) (by decide) (by decide)
    (Or.inr ⟨' ', rfl, by decide⟩) (Or.inr ⟨'-', rfl, by decide⟩)
    (Or.inr ⟨' ', rfl, by decide⟩)
    (Or.inr ⟨';', rfl, by decide⟩)

/-- C2 counterexample: `"1234567890123"` is a standalone 13-digit sequence,
yet detection returns no findings at all — in particular no `credit_card`
finding with severity HIGH covering it, contrary to the claim's 13-16 digit
range; standalone 14- and 15-digit sequences likewise yield no findings. -/
theorem creditCard_13_digits_counterexample :
    (("1234567890123".toList : List Char).length = 13 ∧
      ∀ c ∈ ("1234567890123".toList : List Char), c.isDigit = true) ∧
    inspectText "1234567890123".toList = [] ∧
    inspectText "12345678901234".toList = [] ∧
    inspectText "123456789012345".toList = [] := by
  refine ⟨⟨by decide, by decide⟩, by decide, by decide, by decide⟩

end Phantom
